import Mathlib

/-!
Shallow embedding of `bimultimap` (`src/map.rs`): a bidirectional multimap
storing (key, value) relations in a fixed two-dimensional grid of buckets.
A relation `(k, v)` lives in the bucket at coordinate
`(hash(k) mod rows, hash(v) mod cols)`; each bucket is a `HashSet<(K, V)>`,
modelled here as a duplicate-free `List (K × V)` (the list fixes one of the
arbitrary iteration orders of the hash set; freedom from duplicates is part
of the structural invariant `Wf`).

The Rust `Array2<HashSet<(K, V)>>` is modelled as its shape (`rows`, `cols`)
together with a total function from coordinates to bucket contents; only
coordinates below the shape are ever read or written by the operations.
The `BuildHasher`/`Hasher` pair is modelled by `HasherModel`: `build_hasher`
yields the initial hasher state `init`, `Hash::hash` is a state transition
(`writeKey` / `writeVal` for the two hashed types), and `finish` produces the
digest, truncated to 64 bits as in Rust's `u64`.
-/

set_option linter.unusedSectionVars false

namespace BiMulti

/-- Model of the `S : BuildHasher` parameter together with the `Hash`
implementations of `K` and `V`: `init` is the state of a hasher freshly made
by `build_hasher`, `writeKey`/`writeVal` are the `Hash::hash` state
transitions, and `finish` extracts the digest (taken mod `2 ^ 64` at use
sites to model `u64`). -/
structure HasherModel (K V : Type) where
  init : Nat
  writeKey : Nat → K → Nat
  writeVal : Nat → V → Nat
  finish : Nat → Nat

/-- Model of `BiMultiMap<K, V, S>`: the bucket grid `Array2<HashSet<(K,V)>>`
as its shape plus contents, and the hash builder. -/
structure BiMultiMap (K V : Type) where
  rows : Nat
  cols : Nat
  buckets : Nat → Nat → List (K × V)
  builder : HasherModel K V

namespace BiMultiMap

variable {K V : Type} [DecidableEq K] [DecidableEq V]

/-- Model of `fn hash<T: Hash>(&self, val: &T) -> u64` applied to a key: build
a fresh hasher from the builder, feed the key, finish; the result is a `u64`
digest, hence the truncation mod `2 ^ 64`. -/
def hashKey (m : BiMultiMap K V) (k : K) : Nat :=
  m.builder.finish (m.builder.writeKey m.builder.init k) % 2 ^ 64

/-- Model of `fn hash<T: Hash>(&self, val: &T) -> u64` applied to a value. -/
def hashVal (m : BiMultiMap K V) (v : V) : Nat :=
  m.builder.finish (m.builder.writeVal m.builder.init v) % 2 ^ 64

/-- The call shape of `fn hash(&self, ...)`: `&self` is an immutable borrow,
so the call returns the digest and leaves the container exactly as it was;
the state threading is made explicit here. -/
def hashKeyCall (m : BiMultiMap K V) (k : K) : Nat × BiMultiMap K V :=
  (m.hashKey k, m)

/-- Value-side counterpart of `hashKeyCall`. -/
def hashValCall (m : BiMultiMap K V) (v : V) : Nat × BiMultiMap K V :=
  (m.hashVal v, m)

/-- Row coordinate `(key_hash as usize) % dims[0]` computed by `bucket`,
`bucket_mut` and `key_iter`. -/
def keyIndex (m : BiMultiMap K V) (k : K) : Nat :=
  m.hashKey k % m.rows

/-- Column coordinate `(val_hash as usize) % dims[1]` computed by `bucket`,
`bucket_mut` and `val_iter`. -/
def valIndex (m : BiMultiMap K V) (v : V) : Nat :=
  m.hashVal v % m.cols

/-- Model of `fn bucket(&self, key, val) -> &HashSet<(K, V)>`: the bucket that
should contain the pair, at `[[key_ind, val_ind]]`. -/
def bucket (m : BiMultiMap K V) (k : K) (v : V) : List (K × V) :=
  m.buckets (m.keyIndex k) (m.valIndex v)

/-- Writing through the mutable reference returned by `bucket_mut`: replace
the bucket at one coordinate, leaving shape, builder, and every other bucket
unchanged. -/
def setBucket (m : BiMultiMap K V) (r c : Nat) (b : List (K × V)) :
    BiMultiMap K V :=
  { m with buckets := fun i j => if i = r ∧ j = c then b else m.buckets i j }

/-- Semantics of `HashSet::insert`: returns `true` and adds the element when
it is absent, returns `false` and leaves the set untouched when present. -/
def bucketInsert (b : List (K × V)) (p : K × V) : Bool × List (K × V) :=
  if p ∈ b then (false, b) else (true, p :: b)

/-- Semantics of `HashSet::remove`: returns whether the element was present,
removing it if so. -/
def bucketRemove (b : List (K × V)) (p : K × V) : Bool × List (K × V) :=
  if p ∈ b then (true, b.erase p) else (false, b)

/-- Model of `pub fn insert(&mut self, key: K, val: V) -> bool`:
`self.bucket_mut(&key, &val).insert((key, val))`. Returns the flag and the
updated container. -/
def insert (m : BiMultiMap K V) (k : K) (v : V) : Bool × BiMultiMap K V :=
  let r := bucketInsert (m.bucket k v) (k, v)
  (r.1, m.setBucket (m.keyIndex k) (m.valIndex v) r.2)

/-- Model of `pub fn remove(&mut self, entry: &(K, V)) -> bool`:
`self.bucket_mut(&entry.0, &entry.1).remove(entry)`. -/
def remove (m : BiMultiMap K V) (e : K × V) : Bool × BiMultiMap K V :=
  let r := bucketRemove (m.bucket e.1 e.2) e
  (r.1, m.setBucket (m.keyIndex e.1) (m.valIndex e.2) r.2)

end BiMultiMap

/-- Model of `pub fn with_hasher(keys, vals, builder)`: a `keys × vals` grid
of empty buckets (`Array2::default`) and the given builder. The source
performs no validation of `keys` or `vals`. -/
def with_hasher {K V : Type} (keys vals : Nat) (b : HasherModel K V) :
    BiMultiMap K V :=
  { rows := keys, cols := vals, buckets := fun _ _ => ∅, builder := b }

/-- Model of `pub fn new(keys, vals)`: delegates to `with_hasher` with the
default `RandomState` builder; the randomized seed comes from the
environment, so the default builder is passed explicitly here. -/
def new {K V : Type} (keys vals : Nat) (b : HasherModel K V) :
    BiMultiMap K V :=
  with_hasher keys vals b

namespace BiMultiMap

variable {K V : Type} [DecidableEq K] [DecidableEq V]

/-- Model of `key_iter`: take the row `hash(key) % rows` (the
`subview(Axis(0), key_ind)`), and over its buckets in column order yield the
values of the stored pairs whose key equals the queried key. -/
def key_iter (m : BiMultiMap K V) (key : K) : List V :=
  (List.range m.cols).flatMap fun j =>
    (m.buckets (m.keyIndex key) j).filterMap fun p =>
      if p.1 = key then some p.2 else none

/-- Model of `val_iter`: take the column `hash(val) % cols` (the
`subview(Axis(1), val_ind)`), and over its buckets in row order yield the
keys of the stored pairs whose value equals the queried value. -/
def val_iter (m : BiMultiMap K V) (val : V) : List K :=
  (List.range m.rows).flatMap fun i =>
    (m.buckets i (m.valIndex val)).filterMap fun p =>
      if p.2 = val then some p.1 else none

/-- Model of `pub fn iter`: `self.buckets.iter().flat_map(HashSet::iter)`,
the buckets visited in row-major order. -/
def iter (m : BiMultiMap K V) : List (K × V) :=
  (List.range m.rows).flatMap fun i =>
    (List.range m.cols).flatMap fun j => m.buckets i j

/-- The set of relations currently stored: the union of all in-shape
buckets. -/
def relations (m : BiMultiMap K V) : Finset (K × V) :=
  (Finset.range m.rows ×ˢ Finset.range m.cols).biUnion fun ij =>
    (m.buckets ij.1 ij.2).toFinset

/-- Structural invariant: every pair stored in an in-shape bucket sits at the
coordinate determined by the container's hashes and shape, and no bucket
holds two equal relations (the `HashSet` set semantics). -/
def Wf (m : BiMultiMap K V) : Prop :=
  ∀ i < m.rows, ∀ j < m.cols,
    (m.buckets i j).Nodup ∧
    ∀ p ∈ m.buckets i j, m.keyIndex p.1 = i ∧ m.valIndex p.2 = j

instance (m : BiMultiMap K V) : Decidable m.Wf :=
  decidable_of_iff
    (∀ i < m.rows, ∀ j < m.cols,
      (m.buckets i j).Nodup ∧
      ∀ p ∈ m.buckets i j, m.keyIndex p.1 = i ∧ m.valIndex p.2 = j)
    Iff.rfl

end BiMultiMap

/-- The spec's construction error taxonomy. -/
inductive ConstructError
  | invalidCapacity
deriving DecidableEq

/-- Construction as described by the spec, for comparison with the source:
it demands an InvalidCapacity failure when either dimension is zero and
success otherwise. -/
def construct_spec {K V : Type} (keys vals : Nat) (b : HasherModel K V) :
    Except ConstructError (BiMultiMap K V) :=
  if keys = 0 ∨ vals = 0 then Except.error ConstructError.invalidCapacity
  else Except.ok (with_hasher keys vals b)

/-- Construction as the source performs it, written with the spec's fallible
signature so the two can be compared: `new`/`with_hasher` run no validation
at all and cannot fail. -/
def construct {K V : Type} (keys vals : Nat) (b : HasherModel K V) :
    Except ConstructError (BiMultiMap K V) :=
  Except.ok (with_hasher keys vals b)

/-- A concrete hash provider over natural-number keys and values, used to
evaluate the operations on explicit inputs. -/
def natBuilder : HasherModel Nat Nat :=
  { init := 0
    writeKey := fun s k => s + k
    writeVal := fun s v => s + v
    finish := fun s => s }

/-- An empty 3×3 container over naturals. -/
def mapEx0 : BiMultiMap Nat Nat :=
  with_hasher 3 3 natBuilder

/-- The container holding exactly the relation (1, 2). -/
def mapEx1 : BiMultiMap Nat Nat :=
  (mapEx0.insert 1 2).2

/-- The container holding exactly the relations (1, 2) and (1, 5). -/
def mapEx2 : BiMultiMap Nat Nat :=
  (mapEx1.insert 1 5).2

/-- A 1×1 container holding exactly the relation (0, 0). -/
def mapOne : BiMultiMap Nat Nat :=
  ((with_hasher 1 1 natBuilder).insert 0 0).2

namespace BiMultiMap

variable {K V : Type} [DecidableEq K] [DecidableEq V]

theorem rows_insert (m : BiMultiMap K V) (k : K) (v : V) :
    (m.insert k v).2.rows = m.rows := rfl

theorem cols_insert (m : BiMultiMap K V) (k : K) (v : V) :
    (m.insert k v).2.cols = m.cols := rfl

theorem keyIndex_insert (m : BiMultiMap K V) (k : K) (v : V) (k0 : K) :
    (m.insert k v).2.keyIndex k0 = m.keyIndex k0 := rfl

theorem valIndex_insert (m : BiMultiMap K V) (k : K) (v : V) (v0 : V) :
    (m.insert k v).2.valIndex v0 = m.valIndex v0 := rfl

theorem buckets_insert (m : BiMultiMap K V) (k : K) (v : V) (i j : Nat) :
    (m.insert k v).2.buckets i j =
      if i = m.keyIndex k ∧ j = m.valIndex v
      then (bucketInsert (m.bucket k v) (k, v)).2
      else m.buckets i j := rfl

theorem fst_insert (m : BiMultiMap K V) (k : K) (v : V) :
    (m.insert k v).1 = ((k, v) ∉ m.bucket k v : Bool) := by
  by_cases h : (k, v) ∈ m.bucket k v <;>
    simp [BiMultiMap.insert, bucketInsert, h]

theorem rows_remove (m : BiMultiMap K V) (e : K × V) :
    (m.remove e).2.rows = m.rows := rfl

theorem cols_remove (m : BiMultiMap K V) (e : K × V) :
    (m.remove e).2.cols = m.cols := rfl

theorem keyIndex_remove (m : BiMultiMap K V) (e : K × V) (k0 : K) :
    (m.remove e).2.keyIndex k0 = m.keyIndex k0 := rfl

theorem valIndex_remove (m : BiMultiMap K V) (e : K × V) (v0 : V) :
    (m.remove e).2.valIndex v0 = m.valIndex v0 := rfl

theorem buckets_remove (m : BiMultiMap K V) (e : K × V) (i j : Nat) :
    (m.remove e).2.buckets i j =
      if i = m.keyIndex e.1 ∧ j = m.valIndex e.2
      then (bucketRemove (m.bucket e.1 e.2) e).2
      else m.buckets i j := rfl

theorem fst_remove (m : BiMultiMap K V) (e : K × V) :
    (m.remove e).1 = (e ∈ m.bucket e.1 e.2 : Bool) := by
  by_cases h : e ∈ m.bucket e.1 e.2 <;>
    simp [BiMultiMap.remove, bucketRemove, h]

theorem keyIndex_lt (m : BiMultiMap K V) (k : K) (hr : 0 < m.rows) :
    m.keyIndex k < m.rows :=
  Nat.mod_lt _ hr

theorem valIndex_lt (m : BiMultiMap K V) (v : V) (hc : 0 < m.cols) :
    m.valIndex v < m.cols :=
  Nat.mod_lt _ hc

theorem mem_bucketInsert {b : List (K × V)} {p q : K × V} :
    p ∈ (bucketInsert b q).2 ↔ p = q ∨ p ∈ b := by
  by_cases h : q ∈ b <;> simp [bucketInsert, h]
  intro he; rw [he]; exact h

theorem nodup_bucketInsert {b : List (K × V)} {q : K × V} (hb : b.Nodup) :
    (bucketInsert b q).2.Nodup := by
  by_cases h : q ∈ b <;> simp [bucketInsert, h, hb]

theorem mem_bucketRemove {b : List (K × V)} {p q : K × V} (hb : b.Nodup) :
    p ∈ (bucketRemove b q).2 ↔ p ∈ b ∧ p ≠ q := by
  by_cases h : q ∈ b <;> simp [bucketRemove, h, hb.mem_erase_iff]
  · tauto
  · intro hp he; rw [he] at hp; exact h hp

theorem nodup_bucketRemove {b : List (K × V)} {q : K × V} (hb : b.Nodup) :
    (bucketRemove b q).2.Nodup := by
  by_cases h : q ∈ b <;> simp [bucketRemove, h, hb, hb.erase q]

theorem mem_relations {m : BiMultiMap K V} {p : K × V} :
    p ∈ m.relations ↔ ∃ i, i < m.rows ∧ ∃ j, j < m.cols ∧ p ∈ m.buckets i j := by
  simp only [relations, Finset.mem_biUnion, Finset.mem_product, Finset.mem_range,
    List.mem_toFinset, Prod.exists]
  constructor
  · rintro ⟨i, j, ⟨hi, hj⟩, hp⟩
    exact ⟨i, hi, j, hj, hp⟩
  · rintro ⟨i, hi, j, hj, hp⟩
    exact ⟨i, j, ⟨hi, hj⟩, hp⟩

theorem mem_relations_of_mem_bucket {m : BiMultiMap K V} {k : K} {v : V}
    {p : K × V} (hr : 0 < m.rows) (hc : 0 < m.cols) (hp : p ∈ m.bucket k v) :
    p ∈ m.relations :=
  mem_relations.mpr
    ⟨m.keyIndex k, m.keyIndex_lt k hr, m.valIndex v, m.valIndex_lt v hc, hp⟩

theorem mem_bucket_of_mem_relations {m : BiMultiMap K V} {k : K} {v : V}
    (hw : m.Wf) (h : (k, v) ∈ m.relations) : (k, v) ∈ m.bucket k v := by
  obtain ⟨i, hi, j, hj, hp⟩ := mem_relations.mp h
  obtain ⟨hk, hv⟩ := (hw i hi j hj).2 (k, v) hp
  rw [bucket, hk, hv]
  exact hp

theorem mem_bucket_iff_mem_relations {m : BiMultiMap K V} {k : K} {v : V}
    (hw : m.Wf) (hr : 0 < m.rows) (hc : 0 < m.cols) :
    (k, v) ∈ m.bucket k v ↔ (k, v) ∈ m.relations :=
  ⟨fun h => mem_relations_of_mem_bucket hr hc h,
   fun h => mem_bucket_of_mem_relations hw h⟩

theorem entry_mem_bucket_iff_mem_relations {m : BiMultiMap K V} {e : K × V}
    (hw : m.Wf) (hr : 0 < m.rows) (hc : 0 < m.cols) :
    e ∈ m.bucket e.1 e.2 ↔ e ∈ m.relations := by
  obtain ⟨k, v⟩ := e
  exact mem_bucket_iff_mem_relations hw hr hc

theorem relations_insert (m : BiMultiMap K V) (k : K) (v : V)
    (hr : 0 < m.rows) (hc : 0 < m.cols) :
    (m.insert k v).2.relations = Insert.insert (k, v) m.relations := by
  ext p
  rw [Finset.mem_insert, mem_relations, mem_relations, rows_insert, cols_insert]
  constructor
  · rintro ⟨i, hi, j, hj, hp⟩
    rw [buckets_insert] at hp
    by_cases hij : i = m.keyIndex k ∧ j = m.valIndex v
    · rw [if_pos hij] at hp
      rcases mem_bucketInsert.mp hp with h | h
      · exact Or.inl h
      · exact Or.inr ⟨i, hi, j, hj, by rw [hij.1, hij.2]; exact h⟩
    · rw [if_neg hij] at hp
      exact Or.inr ⟨i, hi, j, hj, hp⟩
  · rintro (h | ⟨i, hi, j, hj, hp⟩)
    · refine ⟨m.keyIndex k, m.keyIndex_lt k hr, m.valIndex v, m.valIndex_lt v hc, ?_⟩
      rw [buckets_insert, if_pos ⟨rfl, rfl⟩]
      exact mem_bucketInsert.mpr (Or.inl h)
    · refine ⟨i, hi, j, hj, ?_⟩
      rw [buckets_insert]
      by_cases hij : i = m.keyIndex k ∧ j = m.valIndex v
      · rw [if_pos hij]
        refine mem_bucketInsert.mpr (Or.inr ?_)
        show p ∈ m.buckets (m.keyIndex k) (m.valIndex v)
        rw [← hij.1, ← hij.2]
        exact hp
      · rw [if_neg hij]
        exact hp

theorem relations_remove (m : BiMultiMap K V) (e : K × V) (hw : m.Wf) :
    (m.remove e).2.relations = m.relations.erase e := by
  ext p
  rw [Finset.mem_erase, mem_relations, mem_relations, rows_remove, cols_remove]
  constructor
  · rintro ⟨i, hi, j, hj, hp⟩
    rw [buckets_remove] at hp
    by_cases hij : i = m.keyIndex e.1 ∧ j = m.valIndex e.2
    · rw [if_pos hij] at hp
      have hnd : (m.bucket e.1 e.2).Nodup := by
        have := (hw i hi j hj).1
        rwa [bucket, ← hij.1, ← hij.2]
      obtain ⟨hpb, hpe⟩ := (mem_bucketRemove hnd).mp hp
      exact ⟨hpe, i, hi, j, hj, by rw [hij.1, hij.2]; exact hpb⟩
    · rw [if_neg hij] at hp
      refine ⟨?_, i, hi, j, hj, hp⟩
      intro he
      subst he
      exact hij ⟨((hw i hi j hj).2 p hp).1.symm, ((hw i hi j hj).2 p hp).2.symm⟩
  · rintro ⟨hpe, i, hi, j, hj, hp⟩
    refine ⟨i, hi, j, hj, ?_⟩
    rw [buckets_remove]
    by_cases hij : i = m.keyIndex e.1 ∧ j = m.valIndex e.2
    · rw [if_pos hij]
      have hnd : (m.bucket e.1 e.2).Nodup := by
        have := (hw i hi j hj).1
        rwa [bucket, ← hij.1, ← hij.2]
      refine (mem_bucketRemove hnd).mpr ⟨?_, hpe⟩
      show p ∈ m.buckets (m.keyIndex e.1) (m.valIndex e.2)
      rw [← hij.1, ← hij.2]
      exact hp
    · rw [if_neg hij]
      exact hp

theorem setBucket_self (m : BiMultiMap K V) (r c : Nat) :
    m.setBucket r c (m.buckets r c) = m := by
  obtain ⟨rows, cols, bk, bd⟩ := m
  simp only [setBucket]
  congr 1
  funext i j
  by_cases h : i = r ∧ j = c
  · rw [if_pos h, h.1, h.2]
  · rw [if_neg h]

theorem insert_noop (m : BiMultiMap K V) (k : K) (v : V)
    (h : (m.insert k v).1 = false) : (m.insert k v).2 = m := by
  have hm : (k, v) ∈ m.bucket k v := by
    by_contra hmem
    rw [fst_insert] at h
    simp [hmem] at h
  show m.setBucket (m.keyIndex k) (m.valIndex v) (bucketInsert (m.bucket k v) (k, v)).2 = m
  rw [bucketInsert, if_pos hm]
  exact m.setBucket_self _ _

theorem remove_noop (m : BiMultiMap K V) (e : K × V)
    (h : (m.remove e).1 = false) : (m.remove e).2 = m := by
  have hm : e ∉ m.bucket e.1 e.2 := by
    intro hmem
    rw [fst_remove] at h
    simp [hmem] at h
  show m.setBucket (m.keyIndex e.1) (m.valIndex e.2) (bucketRemove (m.bucket e.1 e.2) e).2 = m
  rw [bucketRemove, if_neg hm]
  exact m.setBucket_self _ _

theorem wf_with_hasher (keys vals : Nat) (b : HasherModel K V) :
    (with_hasher (K := K) (V := V) keys vals b).Wf := by
  intro i _ j _
  exact ⟨List.nodup_nil, fun p hp => absurd hp (List.not_mem_nil p)⟩

theorem wf_insert {m : BiMultiMap K V} (k : K) (v : V) (hw : m.Wf)
    (hr : 0 < m.rows) (hc : 0 < m.cols) : (m.insert k v).2.Wf := by
  intro i hi j hj
  rw [rows_insert] at hi
  rw [cols_insert] at hj
  rw [buckets_insert]
  by_cases hij : i = m.keyIndex k ∧ j = m.valIndex v
  · rw [if_pos hij]
    have hb : (m.bucket k v).Nodup ∧
        ∀ p ∈ m.bucket k v, m.keyIndex p.1 = m.keyIndex k ∧ m.valIndex p.2 = m.valIndex v := by
      have := hw (m.keyIndex k) (m.keyIndex_lt k hr) (m.valIndex v) (m.valIndex_lt v hc)
      exact this
    refine ⟨nodup_bucketInsert hb.1, ?_⟩
    intro p hp
    rcases mem_bucketInsert.mp hp with h | h
    · subst h
      simp only [keyIndex_insert, valIndex_insert]
      exact ⟨hij.1.symm, hij.2.symm⟩
    · obtain ⟨h1, h2⟩ := hb.2 p h
      simp only [keyIndex_insert, valIndex_insert]
      exact ⟨hij.1 ▸ h1, hij.2 ▸ h2⟩
  · rw [if_neg hij]
    obtain ⟨h1, h2⟩ := hw i hi j hj
    refine ⟨h1, ?_⟩
    intro p hp
    simp only [keyIndex_insert, valIndex_insert]
    exact h2 p hp

theorem wf_remove {m : BiMultiMap K V} (e : K × V) (hw : m.Wf) :
    (m.remove e).2.Wf := by
  intro i hi j hj
  rw [rows_remove] at hi
  rw [cols_remove] at hj
  rw [buckets_remove]
  by_cases hij : i = m.keyIndex e.1 ∧ j = m.valIndex e.2
  · rw [if_pos hij]
    have hb : (m.bucket e.1 e.2).Nodup := by
      have := (hw i hi j hj).1
      rwa [bucket, ← hij.1, ← hij.2]
    refine ⟨nodup_bucketRemove hb, ?_⟩
    intro p hp
    obtain ⟨hpb, _⟩ := (mem_bucketRemove hb).mp hp
    have := (hw i hi j hj).2 p (by rw [hij.1, hij.2]; exact hpb)
    simp only [keyIndex_remove, valIndex_remove]
    exact this
  · rw [if_neg hij]
    obtain ⟨h1, h2⟩ := hw i hi j hj
    refine ⟨h1, ?_⟩
    intro p hp
    simp only [keyIndex_remove, valIndex_remove]
    exact h2 p hp

theorem keyFilter_eq_some {key : K} {p : K × V} {v : V} :
    (if p.1 = key then some p.2 else none) = some v ↔ p = (key, v) := by
  by_cases h : p.1 = key <;> simp [h, Prod.ext_iff]

theorem valFilter_eq_some {val : V} {p : K × V} {k : K} :
    (if p.2 = val then some p.1 else none) = some k ↔ p = (k, val) := by
  by_cases h : p.2 = val <;> simp [h, Prod.ext_iff]

theorem mem_key_iter {m : BiMultiMap K V} {key : K} {v : V} :
    v ∈ m.key_iter key ↔
      ∃ j, j < m.cols ∧ (key, v) ∈ m.buckets (m.keyIndex key) j := by
  simp only [key_iter, List.mem_flatMap, List.mem_range, List.mem_filterMap]
  constructor
  · rintro ⟨j, hj, p, hp, hsome⟩
    rw [keyFilter_eq_some] at hsome
    subst hsome
    exact ⟨j, hj, hp⟩
  · rintro ⟨j, hj, hp⟩
    exact ⟨j, hj, (key, v), hp, keyFilter_eq_some.mpr rfl⟩

theorem mem_val_iter {m : BiMultiMap K V} {val : V} {k : K} :
    k ∈ m.val_iter val ↔
      ∃ i, i < m.rows ∧ (k, val) ∈ m.buckets i (m.valIndex val) := by
  simp only [val_iter, List.mem_flatMap, List.mem_range, List.mem_filterMap]
  constructor
  · rintro ⟨i, hi, p, hp, hsome⟩
    rw [valFilter_eq_some] at hsome
    subst hsome
    exact ⟨i, hi, hp⟩
  · rintro ⟨i, hi, hp⟩
    exact ⟨i, hi, (k, val), hp, valFilter_eq_some.mpr rfl⟩

theorem mem_key_iter_iff_mem_relations {m : BiMultiMap K V} {key : K} {v : V}
    (hw : m.Wf) (hr : 0 < m.rows) :
    v ∈ m.key_iter key ↔ (key, v) ∈ m.relations := by
  rw [mem_key_iter, mem_relations]
  constructor
  · rintro ⟨j, hj, hp⟩
    exact ⟨m.keyIndex key, m.keyIndex_lt key hr, j, hj, hp⟩
  · rintro ⟨i, hi, j, hj, hp⟩
    have h := (hw i hi j hj).2 (key, v) hp
    exact ⟨j, hj, by rw [h.1]; exact hp⟩

theorem mem_val_iter_iff_mem_relations {m : BiMultiMap K V} {val : V} {k : K}
    (hw : m.Wf) (hc : 0 < m.cols) :
    k ∈ m.val_iter val ↔ (k, val) ∈ m.relations := by
  rw [mem_val_iter, mem_relations]
  constructor
  · rintro ⟨i, hi, hp⟩
    exact ⟨i, hi, m.valIndex val, m.valIndex_lt val hc, hp⟩
  · rintro ⟨i, hi, j, hj, hp⟩
    have h := (hw i hi j hj).2 (k, val) hp
    exact ⟨i, hi, by rw [h.2]; exact hp⟩

theorem key_iter_nodup {m : BiMultiMap K V} (key : K) (hw : m.Wf)
    (hr : 0 < m.rows) : (m.key_iter key).Nodup := by
  rw [key_iter, List.nodup_flatMap]
  constructor
  · intro j hj
    rw [List.mem_range] at hj
    refine List.Nodup.filterMap ?_ (hw _ (m.keyIndex_lt key hr) j hj).1
    intro p p' v hv hv'
    rw [Option.mem_def, keyFilter_eq_some] at hv hv'
    rw [hv, hv']
  · refine (List.pairwise_lt_range m.cols).imp_of_mem ?_
    intro j j' hj hj' hlt v hv hv'
    rw [List.mem_range] at hj hj'
    rw [List.mem_filterMap] at hv hv'
    obtain ⟨p, hp, hsome⟩ := hv
    obtain ⟨p', hp', hsome'⟩ := hv'
    rw [keyFilter_eq_some] at hsome hsome'
    subst hsome
    subst hsome'
    have h1 := ((hw _ (m.keyIndex_lt key hr) j hj).2 _ hp).2
    have h2 := ((hw _ (m.keyIndex_lt key hr) j' hj').2 _ hp').2
    omega

theorem val_iter_nodup {m : BiMultiMap K V} (val : V) (hw : m.Wf)
    (hc : 0 < m.cols) : (m.val_iter val).Nodup := by
  rw [val_iter, List.nodup_flatMap]
  constructor
  · intro i hi
    rw [List.mem_range] at hi
    refine List.Nodup.filterMap ?_ (hw i hi _ (m.valIndex_lt val hc)).1
    intro p p' k hk hk'
    rw [Option.mem_def, valFilter_eq_some] at hk hk'
    rw [hk, hk']
  · refine (List.pairwise_lt_range m.rows).imp_of_mem ?_
    intro i i' hi hi' hlt k hk hk'
    rw [List.mem_range] at hi hi'
    rw [List.mem_filterMap] at hk hk'
    obtain ⟨p, hp, hsome⟩ := hk
    obtain ⟨p', hp', hsome'⟩ := hk'
    rw [valFilter_eq_some] at hsome hsome'
    subst hsome
    subst hsome'
    have h1 := ((hw i hi _ (m.valIndex_lt val hc)).2 _ hp).1
    have h2 := ((hw i' hi' _ (m.valIndex_lt val hc)).2 _ hp').1
    omega

theorem mem_iter {m : BiMultiMap K V} {p : K × V} :
    p ∈ m.iter ↔ ∃ i, i < m.rows ∧ ∃ j, j < m.cols ∧ p ∈ m.buckets i j := by
  simp only [iter, List.mem_flatMap, List.mem_range]

theorem iter_toFinset {m : BiMultiMap K V} : m.iter.toFinset = m.relations := by
  ext p
  rw [List.mem_toFinset, mem_iter, mem_relations]

theorem iter_nodup {m : BiMultiMap K V} (hw : m.Wf) : m.iter.Nodup := by
  rw [iter, List.nodup_flatMap]
  constructor
  · intro i hi
    rw [List.mem_range] at hi
    rw [List.nodup_flatMap]
    constructor
    · intro j hj
      rw [List.mem_range] at hj
      exact (hw i hi j hj).1
    · refine (List.pairwise_lt_range m.cols).imp_of_mem ?_
      intro j j' hj hj' hlt p hp hp'
      rw [List.mem_range] at hj hj'
      have h1 := ((hw i hi j hj).2 p hp).2
      have h2 := ((hw i hi j' hj').2 p hp').2
      omega
  · refine (List.pairwise_lt_range m.rows).imp_of_mem ?_
    intro i i' hi hi' hlt p hp hp'
    rw [List.mem_range] at hi hi'
    rw [List.mem_flatMap] at hp hp'
    obtain ⟨j, hj, hpj⟩ := hp
    obtain ⟨j', hj', hpj'⟩ := hp'
    rw [List.mem_range] at hj hj'
    have h1 := ((hw i hi j hj).2 p hpj).1
    have h2 := ((hw i' hi' j' hj').2 p hpj').1
    omega

theorem iter_length {m : BiMultiMap K V} (hw : m.Wf) :
    m.iter.length = m.relations.card := by
  rw [← iter_toFinset, List.toFinset_card_of_nodup (iter_nodup hw)]

/-- C1: for every well-formed container, `key_iter k` yields exactly the
values `v` with the relation (k, v) stored — hash/coordinate collisions in
the scanned row are filtered out by exact key equality — with no duplicates;
symmetrically `val_iter v` yields exactly the keys `k` with (k, v) stored,
with no duplicates. -/
theorem key_iter_val_iter_exact (m : BiMultiMap K V) (hr : 0 < m.rows)
    (hc : 0 < m.cols) (hw : m.Wf) (k : K) (v : V) :
    (v ∈ m.key_iter k ↔ (k, v) ∈ m.relations) ∧ (m.key_iter k).Nodup ∧
    (k ∈ m.val_iter v ↔ (k, v) ∈ m.relations) ∧ (m.val_iter v).Nodup :=
  ⟨mem_key_iter_iff_mem_relations hw hr, key_iter_nodup k hw hr,
   mem_val_iter_iff_mem_relations hw hc, val_iter_nodup v hw hc⟩

theorem key_iter_val_iter_exact_witness :
    (2 ∈ mapEx2.key_iter 1 ↔ (1, 2) ∈ mapEx2.relations) ∧
    (mapEx2.key_iter 1).Nodup ∧
    (1 ∈ mapEx2.val_iter 2 ↔ (1, 2) ∈ mapEx2.relations) ∧
    (mapEx2.val_iter 2).Nodup :=
  key_iter_val_iter_exact mapEx2 (by decide) (by decide) (by decide) 1 2

/-- C3: `insert` returns `true` exactly when the relation was not previously
stored; on a fresh relation, inserting it twice yields `true` then `false`,
and the relation count grows by exactly one over the two calls. -/
theorem insert_true_iff_new (m : BiMultiMap K V) (hr : 0 < m.rows)
    (hc : 0 < m.cols) (hw : m.Wf) (k : K) (v : V) :
    ((m.insert k v).1 = true ↔ (k, v) ∉ m.relations) ∧
    ((k, v) ∉ m.relations →
      (m.insert k v).1 = true ∧
      ((m.insert k v).2.insert k v).1 = false ∧
      ((m.insert k v).2.insert k v).2.relations.card = m.relations.card + 1) := by
  have ha : (m.insert k v).1 = true ↔ (k, v) ∉ m.relations := by
    rw [fst_insert]
    simp only [decide_eq_true_eq]
    exact not_congr (mem_bucket_iff_mem_relations hw hr hc)
  refine ⟨ha, fun hnew => ⟨ha.mpr hnew, ?_, ?_⟩⟩
  · rw [fst_insert]
    simp only [decide_eq_true_eq, Decidable.not_not, decide_eq_false_iff_not,
      Decidable.not_not]
    show (k, v) ∈ (m.insert k v).2.buckets _ _
    rw [buckets_insert, if_pos ⟨rfl, rfl⟩]
    exact mem_bucketInsert.mpr (Or.inl rfl)
  · rw [relations_insert _ k v (by rw [rows_insert]; exact hr)
      (by rw [cols_insert]; exact hc), relations_insert m k v hr hc,
      Finset.insert_idem]
    exact Finset.card_insert_of_not_mem hnew

theorem insert_true_iff_new_witness :
    (((mapEx1.insert 2 3).1 = true ↔ (2, 3) ∉ mapEx1.relations) ∧
    ((2, 3) ∉ mapEx1.relations →
      (mapEx1.insert 2 3).1 = true ∧
      ((mapEx1.insert 2 3).2.insert 2 3).1 = false ∧
      ((mapEx1.insert 2 3).2.insert 2 3).2.relations.card =
        mapEx1.relations.card + 1)) :=
  insert_true_iff_new mapEx1 (by decide) (by decide) (by decide) 2 3

/-- C4 (counterexample): on a container already holding the relation, the
insert/remove pair does not return (true, true) — the insert returns
`false` — and the pair of calls removes the relation, changing the stored
set; the round-trip claim fails without a freshness assumption. -/
theorem insert_remove_round_trip_fails :
    (mapOne.insert 0 0).1 = false ∧
    ((mapOne.insert 0 0).2.remove (0, 0)).1 = true ∧
    ((mapOne.insert 0 0).2.remove (0, 0)).2.relations ≠ mapOne.relations := by
  refine ⟨by decide, by decide, by decide⟩

/-- C4 (amended): for every well-formed container and every relation (k, v)
not currently stored, `insert (k, v)` then `remove (k, v)` returns
(true, true) and leaves the stored relation set exactly as it was before
the pair of calls. -/
theorem insert_remove_round_trip (m : BiMultiMap K V) (hr : 0 < m.rows)
    (hc : 0 < m.cols) (hw : m.Wf) (k : K) (v : V)
    (hnew : (k, v) ∉ m.relations) :
    (m.insert k v).1 = true ∧
    ((m.insert k v).2.remove (k, v)).1 = true ∧
    ((m.insert k v).2.remove (k, v)).2.relations = m.relations := by
  have hmem : (k, v) ∈ (m.insert k v).2.bucket k v := by
    show (k, v) ∈ (m.insert k v).2.buckets _ _
    rw [buckets_insert, if_pos ⟨rfl, rfl⟩]
    exact mem_bucketInsert.mpr (Or.inl rfl)
  refine ⟨?_, ?_, ?_⟩
  · rw [fst_insert]
    simp only [decide_eq_true_eq]
    exact fun h => hnew (mem_relations_of_mem_bucket hr hc h)
  · rw [fst_remove]
    simp only [decide_eq_true_eq]
    exact hmem
  · rw [relations_remove _ _ (wf_insert k v hw hr hc),
      relations_insert m k v hr hc]
    exact Finset.erase_insert hnew

theorem insert_remove_round_trip_witness :
    (mapEx1.insert 2 3).1 = true ∧
    ((mapEx1.insert 2 3).2.remove (2, 3)).1 = true ∧
    ((mapEx1.insert 2 3).2.remove (2, 3)).2.relations = mapEx1.relations :=
  insert_remove_round_trip mapEx1 (by decide) (by decide) (by decide) 2 3
    (by decide)

/-- C5: `remove e` returns `true` exactly when `e` was stored at call time,
and the stored set afterwards is the old set with `e` removed; removing an
absent relation returns `false` and leaves the container untouched. -/
theorem remove_true_iff_present (m : BiMultiMap K V) (hr : 0 < m.rows)
    (hc : 0 < m.cols) (hw : m.Wf) (e : K × V) :
    ((m.remove e).1 = true ↔ e ∈ m.relations) ∧
    (m.remove e).2.relations = m.relations.erase e ∧
    (e ∉ m.relations → (m.remove e).1 = false ∧ (m.remove e).2 = m) := by
  have ha : (m.remove e).1 = true ↔ e ∈ m.relations := by
    rw [fst_remove]
    simp only [decide_eq_true_eq]
    exact entry_mem_bucket_iff_mem_relations hw hr hc
  refine ⟨ha, relations_remove m e hw, fun habs => ?_⟩
  have hfalse : (m.remove e).1 = false := by
    cases hb : (m.remove e).1
    · rfl
    · exact absurd (ha.mp hb) habs
  exact ⟨hfalse, remove_noop m e hfalse⟩

theorem remove_true_iff_present_witness :
    (((mapEx1.remove (1, 2)).1 = true ↔ (1, 2) ∈ mapEx1.relations) ∧
    (mapEx1.remove (1, 2)).2.relations = mapEx1.relations.erase (1, 2) ∧
    ((1, 2) ∉ mapEx1.relations →
      (mapEx1.remove (1, 2)).1 = false ∧ (mapEx1.remove (1, 2)).2 = mapEx1)) :=
  remove_true_iff_present mapEx1 (by decide) (by decide) (by decide) (1, 2)

/-- C6: `iter` yields every currently stored relation exactly once and
nothing else: its elements form exactly the stored relation set, it has no
duplicates, and its length is the container's relation count. -/
theorem iter_complete (m : BiMultiMap K V) (hw : m.Wf) :
    m.iter.toFinset = m.relations ∧ m.iter.Nodup ∧
    m.iter.length = m.relations.card :=
  ⟨iter_toFinset, iter_nodup hw, iter_length hw⟩

theorem iter_complete_witness :
    mapEx2.iter.toFinset = mapEx2.relations ∧ mapEx2.iter.Nodup ∧
    mapEx2.iter.length = mapEx2.relations.card :=
  iter_complete mapEx2 (by decide)

/-- C7: the structural invariant — every stored relation sits in the bucket
at (hash(k) mod rows, hash(v) mod cols) and no bucket holds two equal
relations — holds of a fresh container and is preserved by insert and
remove; insert and remove touch only the bucket at that coordinate, and
they change neither the shape nor the hash provider, so a stored relation's
coordinate never changes. -/
theorem invariant_preserved (m : BiMultiMap K V) (hr : 0 < m.rows)
    (hc : 0 < m.cols) (hw : m.Wf) (k : K) (v : V) (e : K × V) (p : K × V)
    (i j : Nat) (keys vals : Nat) (b : HasherModel K V) :
    (with_hasher (K := K) (V := V) keys vals b).Wf ∧
    (m.insert k v).2.Wf ∧
    (m.remove e).2.Wf ∧
    (i < m.rows → j < m.cols → p ∈ m.buckets i j →
      i = m.keyIndex p.1 ∧ j = m.valIndex p.2) ∧
    (i < m.rows → j < m.cols → (m.buckets i j).Nodup) ∧
    (¬(i = m.keyIndex k ∧ j = m.valIndex v) →
      (m.insert k v).2.buckets i j = m.buckets i j) ∧
    (¬(i = m.keyIndex e.1 ∧ j = m.valIndex e.2) →
      (m.remove e).2.buckets i j = m.buckets i j) ∧
    (m.insert k v).2.rows = m.rows ∧ (m.insert k v).2.cols = m.cols ∧
    (m.insert k v).2.keyIndex p.1 = m.keyIndex p.1 ∧
    (m.insert k v).2.valIndex p.2 = m.valIndex p.2 ∧
    (m.remove e).2.rows = m.rows ∧ (m.remove e).2.cols = m.cols ∧
    (m.remove e).2.keyIndex p.1 = m.keyIndex p.1 ∧
    (m.remove e).2.valIndex p.2 = m.valIndex p.2 := by
  refine ⟨wf_with_hasher keys vals b, wf_insert k v hw hr hc, wf_remove e hw,
    ?_, ?_, ?_, ?_, rfl, rfl, rfl, rfl, rfl, rfl, rfl, rfl⟩
  · intro hi hj hp
    obtain ⟨h1, h2⟩ := (hw i hi j hj).2 p hp
    exact ⟨h1.symm, h2.symm⟩
  · intro hi hj
    exact (hw i hi j hj).1
  · intro hij
    rw [buckets_insert, if_neg hij]
  · intro hij
    rw [buckets_remove, if_neg hij]

theorem invariant_preserved_witness :
    (with_hasher (K := Nat) (V := Nat) 2 2 natBuilder).Wf ∧
    (mapEx1.insert 1 5).2.Wf ∧ (mapEx1.remove (1, 2)).2.Wf := by
  have h := invariant_preserved mapEx1 (by decide) (by decide) (by decide)
    1 5 (1, 2) (1, 2) 0 0 2 2 natBuilder
  exact ⟨h.1, h.2.1, h.2.2.1⟩

/-- C8: two independent no-op guarantees: whenever an insert returns `false`
(duplicate relation), that call leaves the container exactly as it was; and
whenever a remove returns `false` (absent relation), that call leaves the
container exactly as it was — no bucket, shape, or provider change, and
neither outcome is an error. -/
theorem noop_frame (m : BiMultiMap K V) (k : K) (v : V) (e : K × V) :
    ((m.insert k v).1 = false → (m.insert k v).2 = m) ∧
    ((m.remove e).1 = false → (m.remove e).2 = m) :=
  ⟨insert_noop m k v, remove_noop m e⟩

theorem noop_frame_witness :
    (mapEx1.insert 1 2).2 = mapEx1 ∧ (mapEx1.remove (9, 9)).2 = mapEx1 :=
  ⟨(noop_frame mapEx1 1 2 (9, 9)).1 (by decide),
   (noop_frame mapEx1 1 2 (9, 9)).2 (by decide)⟩

/-- C9: with a fixed container (hence fixed hash-provider instance), hashing
equal inputs gives equal 64-bit digests; the digest is the pure function of
the provider state and the input given by building a fresh hasher, feeding
the input, and finishing; and a hash call leaves the container unchanged. -/
theorem hash_deterministic (m : BiMultiMap K V) (k1 k2 : K) (v1 v2 : V)
    (hk : k1 = k2) (hv : v1 = v2) :
    m.hashKey k1 = m.hashKey k2 ∧ m.hashVal v1 = m.hashVal v2 ∧
    m.hashKey k1 =
      m.builder.finish (m.builder.writeKey m.builder.init k1) % 2 ^ 64 ∧
    m.hashVal v1 =
      m.builder.finish (m.builder.writeVal m.builder.init v1) % 2 ^ 64 ∧
    (m.hashKeyCall k1).2 = m ∧ (m.hashValCall v1).2 = m ∧
    (m.hashKeyCall k1).1 = m.hashKey k1 ∧ (m.hashValCall v1).1 = m.hashVal v1 := by
  subst hk
  subst hv
  exact ⟨rfl, rfl, rfl, rfl, rfl, rfl, rfl, rfl⟩

theorem hash_deterministic_witness :
    mapEx0.hashKey 4 = mapEx0.hashKey 4 ∧ mapEx0.hashVal 7 = mapEx0.hashVal 7 ∧
    mapEx0.hashKey 4 =
      mapEx0.builder.finish (mapEx0.builder.writeKey mapEx0.builder.init 4) % 2 ^ 64 ∧
    mapEx0.hashVal 7 =
      mapEx0.builder.finish (mapEx0.builder.writeVal mapEx0.builder.init 7) % 2 ^ 64 ∧
    (mapEx0.hashKeyCall 4).2 = mapEx0 ∧ (mapEx0.hashValCall 7).2 = mapEx0 ∧
    (mapEx0.hashKeyCall 4).1 = mapEx0.hashKey 4 ∧
    (mapEx0.hashValCall 7).1 = mapEx0.hashVal 7 :=
  hash_deterministic mapEx0 4 4 7 7 rfl rfl

/-- C10: on any container whose grid has at least one row and one column,
the computed row index `hash(k) mod rows` is strictly below `rows` and the
column index `hash(v) mod cols` strictly below `cols`, so every bucket
access made by insert, remove, `key_iter`, `val_iter` and `iter` is in
bounds. -/
theorem indices_in_bounds (m : BiMultiMap K V) (hr : 0 < m.rows)
    (hc : 0 < m.cols) (k : K) (v : V) :
    m.keyIndex k < m.rows ∧ m.valIndex v < m.cols :=
  ⟨m.keyIndex_lt k hr, m.valIndex_lt v hc⟩

theorem indices_in_bounds_witness :
    mapEx0.keyIndex 41 < mapEx0.rows ∧ mapEx0.valIndex 77 < mapEx0.cols :=
  indices_in_bounds mapEx0 (by decide) (by decide) 41 77

end BiMultiMap

/-- C2 (counterexample): at rows = 0 the source construction succeeds and
returns a container, while the spec's contract demands an InvalidCapacity
failure; the source performs no dimension validation at all. -/
theorem construct_zero_succeeds :
    construct 0 1 natBuilder ≠ Except.error ConstructError.invalidCapacity ∧
    construct 0 1 natBuilder = Except.ok (with_hasher 0 1 natBuilder) ∧
    construct_spec 0 1 natBuilder =
      Except.error ConstructError.invalidCapacity := by
  refine ⟨fun h => ?_, rfl, ?_⟩
  · rw [construct] at h
    exact Except.noConfusion h
  · rw [construct_spec, if_pos (Or.inl rfl)]

/-- C2 (amended): construction never fails: `new` and `with_hasher` accept
any dimensions — including zero — without an InvalidCapacity error, and
return an empty container of the requested shape; in particular
construction with rows = 1 and cols = 1 succeeds and is empty. -/
theorem construct_always_succeeds {K V : Type} [DecidableEq K] [DecidableEq V]
    (keys vals : Nat) (b : HasherModel K V) :
    construct keys vals b = Except.ok (with_hasher keys vals b) ∧
    new keys vals b = with_hasher keys vals b ∧
    (with_hasher (K := K) (V := V) keys vals b).rows = keys ∧
    (with_hasher (K := K) (V := V) keys vals b).cols = vals ∧
    (with_hasher (K := K) (V := V) keys vals b).relations = ∅ := by
  refine ⟨rfl, rfl, rfl, rfl, ?_⟩
  refine Finset.eq_empty_iff_forall_not_mem.mpr fun p hp => ?_
  obtain ⟨i, _, j, _, hmem⟩ := BiMultiMap.mem_relations.mp hp
  exact absurd hmem (List.not_mem_nil p)

end BiMulti
